import Mathlib

/-!
Verification of the one-dimensional cellular-automaton engine (Advent of Code
2018 day 12 notebook).  The source represents the tape as a doubly linked
chain of `Pot` nodes centred on a root (anchor) pot, with lazy `PotentialPot`
placeholders beyond each end.  The step algorithm walks outward from the root
in each direction keeping a 5-wide rolling window whose read cursor stays two
positions ahead of the write cursor, materialises new cells only on true
writes, and finally trims trailing false cells.

We embed the engine at two levels:
1. a tape-level model (`Tape`, `stepFn`, …) capturing the automaton state as
   the root value plus the outward lists of cell values in each direction —
   exactly the data reachable from the root through the chain; and
2. a heap-level model (`Heap`, `appendOp`, `detachOp`, `linkFresh`) of the raw
   pointer operations `Pot.append` / `Pot.detach` and frontier
   materialisation, for the linkage invariants.
-/

/-- One plant value: `True` = `'#'`, `False` = `'.'` (`Plant = bool`). -/
abbrev Plant := Bool

/-- The automaton state reachable from the root pot: the values along the
chain to the left of the root (outward order, position -1 first), the root
value, and the values to the right (position 1 first).  This is the data the
linked `Pot` chain holds. -/
structure Tape where
  left : List Plant
  root : Plant
  right : List Plant
deriving DecidableEq, Repr

namespace Pot

/-- `Pot.from_initial`: build the chain from a `.#` string.  The source makes
a scratch start node, appends one pot per character to the right (`c == '#'`),
then takes `start.right` as the root; on the empty string `start.right` is
`None` and the subsequent attribute assignment fails, hence `Option`. -/
def from_initial (s : String) : Option Tape :=
  match s.data with
  | [] => none
  | c :: cs => some ⟨[], c == '#', cs.map (fun d => d == '#')⟩

end Pot

/-- Character printed for one pot (`Pot.__str__`). -/
def plantChar (b : Plant) : Char := if b then '#' else '.'

/-- `Plants.__str__`: left chars (outward order) reversed, then the root
char, then the right chars. -/
def tapeStr (t : Tape) : String :=
  String.mk ((t.left.map plantChar).reverse ++ plantChar t.root :: t.right.map plantChar)

/-- `Plants.score` helper: `sum(i for i, p in enumerate(pots, start) if p.plant)`. -/
def potSum (start : Nat) : List Plant → Nat
  | [] => 0
  | b :: r => (if b then start else 0) + potSum (start + 1) r

/-- `Plants.score`: weighted sum over the right chain (weights 1,2,…) minus
the weighted sum over the left chain (weights 1,2,…). -/
def score (t : Tape) : Int :=
  (potSum 1 t.right : Int) - (potSum 1 t.left : Int)

/-! ## Rule table

`Rules.mapping` is a Python dict from 5-tuples of plants to a plant.  We model
the dict as an association list in insertion order: `dictSet` replaces the
entry of an existing key in place and appends a missing key at the end, and
`dictGet?` returns the first (unique, in all dicts built here) entry. -/

/-- Python dict keys here are plant tuples of whatever length a rule line
produced (always 5 for well-shaped lines). -/
abbrev RuleKey := List Plant

/-- Association-list model of the `mapping` dict. -/
abbrev RuleDict := List (RuleKey × Plant)

/-- Dict assignment `d[k] = v`: replace in place, or append a new entry. -/
def dictSet : RuleDict → RuleKey → Plant → RuleDict
  | [], k, v => [(k, v)]
  | e :: rest, k, v => if e.1 = k then (k, v) :: rest else e :: dictSet rest k v

/-- Dict lookup returning `none` for a missing key (`KeyError` in Python). -/
def dictGet? : RuleDict → RuleKey → Option Plant
  | [], _ => none
  | e :: rest, k => if e.1 = k then some e.2 else dictGet? rest k

/-- Total lookup used by the step algorithm.  Every dict built by
`Rules.from_lines` holds all 32 length-5 patterns, so the step code's
`mapping[key]` never raises; the `false` default is never exercised there. -/
def rulesGet (d : RuleDict) (k : RuleKey) : Plant :=
  (dictGet? d k).getD false

/-- `itertools.product([False, True], repeat=n)`: all plant tuples of length
`n`, first coordinate varying slowest. -/
def patterns : Nat → List RuleKey
  | 0 => [[]]
  | n + 1 => (patterns n).map (fun k => false :: k) ++ (patterns n).map (fun k => true :: k)

/-- `_blank_rules = dict.fromkeys(product([False, True], repeat=5), False)`. -/
def blankRules : RuleDict := (patterns 5).map (fun k => (k, false))

namespace Rules

/-- The `[.#]` characters of a rule line, as plants (`_rule_parse` then
`c == '#'`). -/
def ruleBools (l : String) : List Plant :=
  (l.data.filter (fun c => c == '.' || c == '#')).map (fun c => c == '#')

/-- One non-blank rule line: `*k, r = parsed` — the last extracted plant is
the result, the rest the key; a line with no `[.#]` character makes the
unpacking raise (`none`). -/
def parseRuleLine (l : String) : Option (RuleKey × Plant) :=
  match (ruleBools l).getLast? with
  | none => none
  | some r => some ((ruleBools l).dropLast, r)

/-- Parse a list of (already blank-filtered) lines, failing if any fails. -/
def parseRules : List String → Option (List (RuleKey × Plant))
  | [] => some []
  | l :: ls =>
    match parseRuleLine l, parseRules ls with
    | some e, some es => some (e :: es)
    | _, _ => none

/-- A line skipped by `if line.strip()`. -/
def blankLine (l : String) : Bool := l.data.all Char.isWhitespace

/-- `{**_blank_rules, **{tuple(k): r for *k, r in parsed}}`: start from the
blank dict and assign every parsed entry in order (later entries win). -/
def buildRules (entries : List (RuleKey × Plant)) : RuleDict :=
  entries.foldl (fun d e => dictSet d e.1 e.2) blankRules

/-- `Rules.from_lines`: drop blank lines, parse the rest, merge over the
blank dict. -/
def from_lines (lines : List String) : Option RuleDict :=
  (parseRules (lines.filter (fun l => !blankLine l))).map buildRules

end Rules

/-! ## The step algorithm (`Rules.apply`)

The rolling window (the `state` list) is rotated by
`('left',  lambda s, p: [p, *s[:4]])` and
`('right', lambda s, p: [*s[-4:], p])`; a window is always in rule-key order
`[left2, left1, centre, right1, right2]`. -/

/-- Left rotation of the window. -/
def rotL (s : List Plant) (p : Plant) : List Plant := p :: s.take 4

/-- Right rotation of the window. -/
def rotR (s : List Plant) (p : Plant) : List Plant := s.drop (s.length - 4) ++ [p]

/-- The lookahead stream `chain((p.plant for p in root.iter_dir(dir)), repeat(False))`
read at index `i`. -/
def look (l : List Plant) (i : Nat) : Plant := (l.get? i).getD false

/-- The central 5-window: seed `[root.plant]`, rotate in the first two left
lookahead values, then the first two right lookahead values.  Evaluates to
`[left2, left1, root, right1, right2]`. -/
def centerWindow (t : Tape) : List Plant :=
  rotR (rotR (rotL (rotL [t.root] (look t.left 0)) (look t.left 1)) (look t.right 0))
    (look t.right 1)

/-- The outward walk over the `cnt` real pots of one direction: at each pot
rotate in the lookahead value two positions further out (old values, the read
cursor stays two ahead of the write cursor) and record the rule value written
to the pot.  Returns the written values and the final window. -/
def walk (m : RuleKey → Plant) (rot : List Plant → Plant → List Plant) :
    Nat → List Plant → List Plant → List Plant × List Plant
  | 0, w, _ => ([], w)
  | n + 1, w, la =>
    let w' := rot w (la.headD false)
    let res := walk m rot n w' la.tail
    (m w' :: res.1, res.2)

/-- Frontier growth: past the last real pot every lookahead value is false, so
the loop repeatedly rotates a false into the window and writes the rule value
to a `PotentialPot`, which materialises (and the walk continues) exactly when
that value is true.  After five false rotations the window is identically
false and the written value is constant `m [F,F,F,F,F]`, so the source loop
runs forever iff the first five values are all true; fuel 5 with `none` for
divergence is therefore exact. -/
def growGo (m : RuleKey → Plant) (rot : List Plant → Plant → List Plant) :
    Nat → List Plant → Option Nat
  | 0, _ => none
  | f + 1, w =>
    let w' := rot w false
    if m w' then (growGo m rot f w').map (· + 1) else some 0

/-- Number of frontier pots materialised in one direction (`none` = the
source loop diverges). -/
def growCount (m : RuleKey → Plant) (rot : List Plant → Plant → List Plant)
    (w : List Plant) : Option Nat :=
  growGo m rot 5 w

/-- The trim loop `while not pot.plant and pot is not root: pot = pot.detach(rev)`:
drop trailing false values of the outward list. -/
def dTF : List Plant → List Plant
  | [] => []
  | b :: r =>
    match dTF r with
    | [] => if b then [true] else []
    | r' => b :: r'

/-- One direction of `Rules.apply` after the central window is built: walk the
real pots, grow the frontier (every materialised pot is true), then trim. -/
def stepDir (m : RuleKey → Plant) (rot : List Plant → Plant → List Plant)
    (w : List Plant) (olds : List Plant) : Option (List Plant) :=
  let res := walk m rot olds.length w (olds.drop 2)
  (growCount m rot res.2).map (fun g => dTF (res.1 ++ List.replicate g true))

/-- `Rules.apply` on the whole tape: build the central window, write the root
value `m w`, then process each direction independently (each direction's
lookahead reads only old values of its own side).  `none` = the source would
loop forever growing one end. -/
def stepFn (m : RuleKey → Plant) (t : Tape) : Option Tape :=
  let w := centerWindow t
  match stepDir m rotL w t.left, stepDir m rotR w t.right with
  | some l, some r => some ⟨l, m w, r⟩
  | _, _ => none

/-- `n` successive calls of `Plants.step`. -/
def stepN (m : RuleKey → Plant) : Nat → Tape → Option Tape
  | 0, t => some t
  | n + 1, t =>
    match stepFn m t with
    | some t' => stepN m n t'
    | none => none

/-- Pad a tape with explicit false cells beyond each end. -/
def padTape (t : Tape) (n k : Nat) : Tape :=
  ⟨t.left ++ List.replicate n false, t.root, t.right ++ List.replicate k false⟩

/-! ## The puzzle fixture (`testplants` cell) -/

/-- The 14 rule lines of the `testplants` fixture. -/
def fixtureLines : List String :=
  ["...## => #", "..#.. => #", ".#... => #", ".#.#. => #", ".#.## => #",
   ".##.. => #", ".#### => #", "#.#.# => #", "#.### => #", "##.#. => #",
   "##.## => #", "###.. => #", "###.# => #", "####. => #"]

/-- The fixture's initial tape. -/
def testTape : Option Tape := Pot.from_initial "#..#.#..##......###...###"

/-- Build the fixture engine, run 20 steps, read the score. -/
def fixtureScore : Option Int :=
  match Rules.from_lines fixtureLines, testTape with
  | some r, some t => (stepN (rulesGet r) 20 t).map score
  | _, _ => none


/-! ## Score specification (claim C7) -/

/-- Positions (counted from `start`) of the true cells of an outward list. -/
def trueIdx (start : Nat) : List Plant → List Nat
  | [] => []
  | b :: r => (if b then [start] else []) ++ trueIdx (start + 1) r

/-- The spec's score: the sum of the signed positions of all true cells
relative to the anchor — right cells positive from 1, left cells negative
from -1, the anchor contributing 0 even when true. -/
def specScore (t : Tape) : Int :=
  ((trueIdx 1 t.right).map Int.ofNat).sum
    + ((trueIdx 1 t.left).map (fun i => -(Int.ofNat i))).sum
    + (if t.root then 0 else 0)

lemma potSum_eq_trueIdx (l : List Plant) : ∀ start,
    (potSum start l : Int) = ((trueIdx start l).map Int.ofNat).sum := by
  induction l with
  | nil => intro start; simp [potSum, trueIdx]
  | cons b r ih =>
    intro start
    cases b <;> simp [potSum, trueIdx, ih (start + 1)]

lemma sum_map_negOfNat (l : List Nat) :
    (l.map (fun i => -(Int.ofNat i))).sum = -((l.map Int.ofNat).sum) := by
  induction l with
  | nil => simp
  | cons a r ih =>
    rw [List.map_cons, List.map_cons, List.sum_cons, List.sum_cons, ih, neg_add]

/-! ## Helper facts about `look` and the lookahead lists -/

lemma look_nil (i : Nat) : look [] i = false := by cases i <;> rfl

lemma look_cons_succ (a : Plant) (l : List Plant) (i : Nat) :
    look (a :: l) (i + 1) = look l i := rfl

lemma look_zero_eq_headD (l : List Plant) : look l 0 = l.headD false := by
  cases l <;> rfl

lemma look_tail (l : List Plant) (i : Nat) : look l.tail i = look l (i + 1) := by
  cases l <;> simp [look_nil, look_cons_succ, List.tail]

lemma look_append_replicate_false (l : List Plant) (n : Nat) (i : Nat) :
    look (l ++ List.replicate n false) i = look l i := by
  induction l generalizing i with
  | nil =>
    simp only [List.nil_append, look_nil]
    induction n generalizing i with
    | zero => simp [look_nil]
    | succ n ih =>
      cases i with
      | zero => rfl
      | succ j => simpa [look_cons_succ] using ih j
  | cons a r ih =>
    cases i with
    | zero => rfl
    | succ j => simpa [look_cons_succ] using ih j

lemma plantChar_id (c : Char) (h : c = '.' ∨ c = '#') : plantChar (c == '#') = c := by
  rcases h with h | h <;> subst h <;> rfl

lemma map_plantChar_id (cs : List Char) (h : ∀ c ∈ cs, c = '.' ∨ c = '#') :
    (cs.map (fun d => d == '#')).map plantChar = cs := by
  induction cs with
  | nil => rfl
  | cons c r ih =>
    rw [List.map_cons, List.map_cons, plantChar_id c (h c (by simp)),
      ih (fun d hd => h d (by simp [hd]))]

/-! ## Claims C1, C4, C6, C7, C10 -/

set_option maxRecDepth 4000 in
/-- C1: the Engine built from the fixture tape
`#..#.#..##......###...###` and the 14-pattern fixture rule table, stepped
20 times, scores exactly 325. -/
theorem claim_c1_fixture_score : fixtureScore = some 325 := by decide

/-- C4 counterexample: the literal `"a#"` contains the character `'a'`
outside `{'.', '#'}`, yet `Pot.from_initial` accepts it (silently reading
`'a'` as a false cell) instead of failing. -/
theorem claim_c4_counterexample :
    ('a' ∈ "a#".data ∧ ¬('a' = '.' ∨ 'a' = '#'))
      ∧ Pot.from_initial "a#" = some ⟨[], false, [true]⟩ := by
  constructor
  · constructor
    · decide
    · decide
  · rfl

/-- C4 amended: the loader rejects nothing on character content — every
character of a non-empty literal is loaded, `'#'` as a true cell and any
other character (including ones outside `{'.', '#'}`) as a false cell. -/
theorem claim_c4_amended (c : Char) (cs : List Char) :
    Pot.from_initial (String.mk (c :: cs))
      = some ⟨[], c == '#', cs.map (fun d => d == '#')⟩ := rfl

/-- C6: for every non-empty literal over `{'.', '#'}`, `toString` directly
after `fromInitial` returns exactly the literal (leftmost character at the
anchor, the rest extending rightward). -/
theorem claim_c6_round_trip (s : String) (hne : s.data ≠ [])
    (hc : ∀ c ∈ s.data, c = '.' ∨ c = '#') :
    (Pot.from_initial s).map tapeStr = some s := by
  match hs : s.data with
  | [] => exact absurd hs hne
  | c :: cs =>
    have hmk : String.mk (c :: cs) = s := by
      cases s with
      | mk d => rw [show String.data { data := d } = d from rfl] at hs; rw [hs]
    simp only [Pot.from_initial, hs, Option.map_some']
    rw [show tapeStr ⟨[], c == '#', cs.map (fun d => d == '#')⟩
        = String.mk (plantChar (c == '#') :: (cs.map (fun d => d == '#')).map plantChar)
      from rfl]
    rw [plantChar_id c (hc c (by rw [hs]; simp)),
      map_plantChar_id cs (fun d hd => hc d (by rw [hs]; simp [hd])), hmk]

/-- C6 witness at the literal `"#..#"` of Scenario B. -/
theorem claim_c6_round_trip_witness :
    ("#..#".data ≠ [] ∧ ∀ c ∈ "#..#".data, c = '.' ∨ c = '#')
      ∧ (Pot.from_initial "#..#").map tapeStr = some "#..#" :=
  ⟨⟨by decide, by decide⟩,
    claim_c6_round_trip "#..#" (by decide) (by decide)⟩

/-- C7: `score` equals the sum of the signed positions of the true cells
(right cells +1, +2, …, left cells -1, -2, …, the anchor contributing 0 even
when true); in particular a tape with true cells exactly at offsets -2, 0
and 3 scores 1. -/
theorem claim_c7_score :
    (∀ t : Tape, score t = specScore t)
      ∧ score ⟨[false, true], true, [false, false, true]⟩ = 1 := by
  constructor
  · intro t
    rw [score, specScore, potSum_eq_trueIdx, potSum_eq_trueIdx, sum_map_negOfNat]
    cases h : t.root <;> simp <;> ring
  · decide

/-- C10: `fromInitial` is partial exactly at the empty literal: it fails on
`""` and succeeds on every non-empty literal. -/
theorem claim_c10_empty_literal :
    Pot.from_initial "" = none
      ∧ ∀ s : String, s.data ≠ [] → (Pot.from_initial s).isSome = true := by
  refine ⟨rfl, fun s h => ?_⟩
  match hs : s.data with
  | [] => exact absurd hs h
  | c :: cs => simp [Pot.from_initial, hs]

/-- C10 witness: the concrete failure on `""` and success on `"#"`. -/
theorem claim_c10_empty_literal_witness :
    Pot.from_initial "" = none
      ∧ ("#".data ≠ [] ∧ (Pot.from_initial "#").isSome = true) :=
  ⟨claim_c10_empty_literal.1, by decide,
    claim_c10_empty_literal.2 "#" (by decide)⟩

/-! ## Claim C3: the rule table is total with last-write-wins lookup -/

/-- The value of the last supplied entry for a pattern, if any. -/
def lastRule? (es : List (RuleKey × Plant)) (k : RuleKey) : Option Plant :=
  (es.reverse.find? (fun e => decide (e.1 = k))).map Prod.snd

/-- The spec's lookup: the last supplied entry for the pattern if one
exists, `false` otherwise. -/
def lastRule (es : List (RuleKey × Plant)) (k : RuleKey) : Plant :=
  (lastRule? es k).getD false

lemma dictGet?_dictSet (d : RuleDict) (k' : RuleKey) (v : Plant) (k : RuleKey) :
    dictGet? (dictSet d k' v) k = if k = k' then some v else dictGet? d k := by
  induction d with
  | nil =>
    by_cases h : k = k'
    · subst h; simp [dictSet, dictGet?]
    · simp [dictSet, dictGet?, h, Ne.symm h]
  | cons e rest ih =>
    by_cases he : e.1 = k'
    · by_cases h : k = k'
      · subst h
        simp [dictSet, dictGet?, he]
      · have hek : ¬ e.1 = k := fun hh => h (hh.symm.trans he)
        simp [dictSet, dictGet?, he, h, hek, Ne.symm h]
    · by_cases h : k = k'
      · subst h
        simp [dictSet, dictGet?, he, ih]
      · simp only [dictSet, if_neg he, dictGet?, ih, if_neg h]

lemma foldl_dictSet_get (es : List (RuleKey × Plant)) : ∀ (d : RuleDict) (k : RuleKey),
    dictGet? (es.foldl (fun d e => dictSet d e.1 e.2) d) k
      = (lastRule? es k).or (dictGet? d k) := by
  induction es with
  | nil => intro d k; simp [lastRule?]
  | cons e rest ih =>
    intro d k
    rw [List.foldl_cons, ih, dictGet?_dictSet]
    simp only [lastRule?, List.reverse_cons, List.find?_append]
    cases hfind : rest.reverse.find? (fun e => decide (e.1 = k)) with
    | some p => simp [hfind]
    | none =>
      by_cases h : e.1 = k
      · rw [if_pos h.symm]
        simp [hfind, List.find?, h]
      · rw [if_neg (Ne.symm h)]
        simp [hfind, List.find?, h]

lemma dictGet?_map_false (ps : List RuleKey) (k : RuleKey) (h : k ∈ ps) :
    dictGet? (ps.map (fun k => (k, false))) k = some false := by
  induction ps with
  | nil => cases h
  | cons p rest ih =>
    by_cases hp : p = k
    · simp [dictGet?, hp]
    · rcases List.mem_cons.mp h with h' | h'
      · exact absurd h'.symm hp
      · simp [dictGet?, hp, ih h']

lemma dictGet?_map_false_getD (ps : List RuleKey) (k : RuleKey) :
    (dictGet? (ps.map (fun k => (k, false))) k).getD false = false := by
  induction ps with
  | nil => rfl
  | cons p rest ih =>
    by_cases hp : p = k
    · simp [dictGet?, hp]
    · simp [dictGet?, hp, ih]

/-- C3: for every sequence of rule entries the built table is total over all
32 length-5 patterns, and lookup of any pattern is the last supplied entry
for it, or `false` when none was supplied; duplicates just overwrite. -/
theorem claim_c3_rule_table (es : List (RuleKey × Plant)) :
    (∀ k ∈ patterns 5, (dictGet? (Rules.buildRules es) k).isSome = true)
      ∧ ∀ k, rulesGet (Rules.buildRules es) k = lastRule es k := by
  constructor
  · intro k hk
    rw [Rules.buildRules, foldl_dictSet_get, blankRules, dictGet?_map_false _ _ hk]
    cases lastRule? es k <;> simp [Option.or]
  · intro k
    rw [rulesGet, Rules.buildRules, foldl_dictSet_get, lastRule]
    cases h : lastRule? es k with
    | some v => simp [Option.or]
    | none => simpa [Option.or, blankRules] using dictGet?_map_false_getD (patterns 5) k

/-- C3 witness: a concrete entry list with a duplicate pattern — the table
holds all 32 patterns and the duplicate's last value wins. -/
theorem claim_c3_rule_table_witness :
    (([true, true, true, true, true] : RuleKey) ∈ patterns 5
        ∧ (dictGet? (Rules.buildRules
            [([true, true, true, true, true], true), ([true, true, true, true, true], false)])
            [true, true, true, true, true]).isSome = true)
      ∧ rulesGet (Rules.buildRules
            [([true, true, true, true, true], true), ([true, true, true, true, true], false)])
            [true, true, true, true, true]
          = lastRule [([true, true, true, true, true], true), ([true, true, true, true, true], false)]
            [true, true, true, true, true] :=
  ⟨⟨by decide,
      (claim_c3_rule_table [([true, true, true, true, true], true),
        ([true, true, true, true, true], false)]).1 [true, true, true, true, true] (by decide)⟩,
    (claim_c3_rule_table [([true, true, true, true, true], true),
      ([true, true, true, true, true], false)]).2 [true, true, true, true, true]⟩

/-! ## Claim C5: rule-line error handling -/

lemma parseRuleLine_isSome (l : String) :
    (Rules.parseRuleLine l).isSome = true ↔ Rules.ruleBools l ≠ [] := by
  rw [Rules.parseRuleLine]
  cases hgl : (Rules.ruleBools l).getLast? with
  | none => simp [List.getLast?_eq_none_iff.mp hgl]
  | some r =>
    have : Rules.ruleBools l ≠ [] := by
      intro hnil; rw [hnil] at hgl; cases hgl
    simp [this]

lemma parseRules_isSome (ls : List String) :
    (Rules.parseRules ls).isSome = true ↔ ∀ l ∈ ls, Rules.ruleBools l ≠ [] := by
  induction ls with
  | nil => simp [Rules.parseRules]
  | cons l ls ih =>
    rw [Rules.parseRules]
    cases hl : Rules.parseRuleLine l with
    | none =>
      have hno : ¬ Rules.ruleBools l ≠ [] := by
        intro hne
        have h2 := (parseRuleLine_isSome l).mpr hne
        rw [hl] at h2
        simp at h2
      constructor
      · intro hs; simp at hs
      · intro hall; exact absurd (hall l (List.mem_cons_self l ls)) hno
    | some e =>
      cases hps : Rules.parseRules ls with
      | none =>
        constructor
        · intro hs; simp at hs
        · intro hall
          have h2 := ih.mpr (fun x hx => hall x (List.mem_cons_of_mem l hx))
          rw [hps] at h2; simp at h2
      | some es =>
        constructor
        · intro _ x hx
          rcases List.mem_cons.mp hx with rfl | hx
          · exact (parseRuleLine_isSome x).mp (by rw [hl]; rfl)
          · exact ih.mp (by rw [hps]; rfl) x hx
        · intro _; rfl

/-- C5 counterexample: `"x#"` is a non-blank line that does not match the
five-pattern arrow shape (it yields a single `[.#]` character), yet rule
loading accepts it without any error. -/
theorem claim_c5_counterexample :
    Rules.blankLine "x#" = false ∧ (Rules.ruleBools "x#").length = 1
      ∧ (Rules.from_lines ["x#"]).isSome = true := by decide

/-- C5 amended: blank/whitespace-only lines are skipped without error; a
non-blank line is parsed by extracting its `'.'`/`'#'` characters, so loading
fails precisely when some non-blank line has no such character, and any
non-blank line with at least one (its last such character being the result,
the earlier ones the pattern) is accepted even when it does not match the
pattern-arrow-result shape. -/
theorem claim_c5_amended :
    (∀ lines : List String,
      (Rules.from_lines lines).isSome = true
        ↔ ∀ l ∈ lines, Rules.blankLine l = false → Rules.ruleBools l ≠ [])
      ∧ ∀ (l : String) (ls : List String), Rules.blankLine l = true →
          Rules.from_lines (l :: ls) = Rules.from_lines ls := by
  constructor
  · intro lines
    rw [Rules.from_lines]
    cases hps : Rules.parseRules (lines.filter (fun l => !Rules.blankLine l)) with
    | none =>
      simp only [Option.map_none', Option.isSome_none, Bool.false_eq_true, false_iff]
      intro hall
      have : (Rules.parseRules (lines.filter (fun l => !Rules.blankLine l))).isSome = true := by
        rw [parseRules_isSome]
        intro l hl
        have hmem := List.mem_filter.mp hl
        exact hall l hmem.1 (by simpa using hmem.2)
      rw [hps] at this; cases this
    | some es =>
      simp only [Option.map_some', Option.isSome_some, true_iff]
      intro l hl hbl
      have : (Rules.parseRules (lines.filter (fun l => !Rules.blankLine l))).isSome = true := by
        rw [hps]; rfl
      exact parseRules_isSome _ |>.mp this l (List.mem_filter.mpr ⟨hl, by simp [hbl]⟩)
  · intro l ls hbl
    rw [Rules.from_lines, Rules.from_lines, List.filter_cons]
    simp [hbl]

/-- C5 witness: a well-shaped line plus a whitespace-only line load
successfully, and a leading blank line is skipped. -/
theorem claim_c5_amended_witness :
    (Rules.from_lines ["...## => #", "  "]).isSome = true
      ∧ Rules.from_lines [" ", "..#.. => #"] = Rules.from_lines ["..#.. => #"] :=
  ⟨(claim_c5_amended.1 ["...## => #", "  "]).mpr (by decide),
    claim_c5_amended.2 " " ["..#.. => #"] (by decide)⟩

/-! ## Claim C9: the all-false rule table -/

lemma rulesGet_blank (k : RuleKey) : rulesGet blankRules k = false := by
  rw [rulesGet, blankRules]
  exact dictGet?_map_false_getD (patterns 5) k

lemma walk_false (m : RuleKey → Plant) (hm : ∀ k, m k = false)
    (rot : List Plant → Plant → List Plant) (n : Nat) :
    ∀ (w la : List Plant), (walk m rot n w la).1 = List.replicate n false := by
  induction n with
  | zero => intro w la; rfl
  | succ n ih => intro w la; simp [walk, hm, ih, List.replicate_succ]

lemma growCount_false (m : RuleKey → Plant) (hm : ∀ k, m k = false)
    (rot : List Plant → Plant → List Plant) (w : List Plant) :
    growCount m rot w = some 0 := by
  rw [growCount, growGo]
  simp [hm]

lemma dTF_replicate_false (n : Nat) : dTF (List.replicate n false) = [] := by
  induction n with
  | zero => rfl
  | succ n ih =>
    rw [List.replicate_succ, dTF, ih]
    simp

lemma stepDir_false (m : RuleKey → Plant) (hm : ∀ k, m k = false)
    (rot : List Plant → Plant → List Plant) (w olds : List Plant) :
    stepDir m rot w olds = some [] := by
  rw [stepDir, growCount_false m hm]
  simp [walk_false m hm, dTF_replicate_false]

lemma stepFn_false (m : RuleKey → Plant) (hm : ∀ k, m k = false) (t : Tape) :
    stepFn m t = some ⟨[], false, []⟩ := by
  rw [stepFn]
  simp only [stepDir_false m hm, hm]

lemma stepN_emptyTape (m : RuleKey → Plant) (hm : ∀ k, m k = false) (n : Nat) :
    stepN m n ⟨[], false, []⟩ = some ⟨[], false, []⟩ := by
  induction n with
  | zero => rfl
  | succ n ih =>
    rw [stepN, stepFn_false m hm]
    exact ih

/-- C9: with the all-false rule table, every `step()` call terminates (the
outward walks stop at the first frontier pot, modelled by the step function
returning a value), and after any positive number of steps the tape is all
false and trimmed so that no real cell remains beyond the anchor. -/
theorem claim_c9_all_false_rules (t : Tape) (n : Nat) (hn : 1 ≤ n) :
    stepN (rulesGet blankRules) n t = some ⟨[], false, []⟩ := by
  cases n with
  | zero => cases hn
  | succ k =>
    rw [stepN, stepFn_false (rulesGet blankRules) rulesGet_blank t]
    exact stepN_emptyTape (rulesGet blankRules) rulesGet_blank k

/-- C9 witness at a concrete tape and step count. -/
theorem claim_c9_all_false_rules_witness :
    1 ≤ 3 ∧ stepN (rulesGet blankRules) 3 ⟨[true, false], true, [false, true]⟩
      = some ⟨[], false, []⟩ :=
  ⟨by decide, claim_c9_all_false_rules ⟨[true, false], true, [false, true]⟩ 3 (by decide)⟩

/-! ## Claim C2: stepping a trimmed tape versus a padded tape

Infrastructure: beyond the last real pot every lookahead value is false, so
the window evolution there is `rot _ false` iteration and the written values
form the sequence `falseVals`. -/

/-- Iterated `rot _ false` (innermost application first). -/
def rotIterI (rot : List Plant → Plant → List Plant) : Nat → List Plant → List Plant
  | 0, w => w
  | j + 1, w => rotIterI rot j (rot w false)

/-- The values written while only false lookahead values roll in:
entry `j` (0-based) is `m (rotIterI rot (j+1) w)`. -/
def falseVals (m : RuleKey → Plant) (rot : List Plant → Plant → List Plant) :
    Nat → List Plant → List Plant
  | 0, _ => []
  | n + 1, w => m (rot w false) :: falseVals m rot n (rot w false)

lemma drop_tail_eq {α : Type} (l : List α) (n : Nat) : l.tail.drop n = l.drop (n + 1) := by
  cases l <;> simp

lemma walk_congr (m : RuleKey → Plant) (rot : List Plant → Plant → List Plant) :
    ∀ (n : Nat) (w la1 la2 : List Plant), (∀ i, look la1 i = look la2 i) →
      walk m rot n w la1 = walk m rot n w la2 := by
  intro n
  induction n with
  | zero => intro w la1 la2 _; rfl
  | succ n ih =>
    intro w la1 la2 hla
    rw [walk, walk]
    have h0 : la1.headD false = la2.headD false := by
      rw [← look_zero_eq_headD, ← look_zero_eq_headD, hla 0]
    have htail : walk m rot n (rot w (la2.headD false)) la1.tail
        = walk m rot n (rot w (la2.headD false)) la2.tail := by
      apply ih
      intro i
      rw [look_tail, look_tail, hla (i + 1)]
    rw [h0, htail]

lemma walk_split (m : RuleKey → Plant) (rot : List Plant → Plant → List Plant) :
    ∀ (c1 c2 : Nat) (w la : List Plant),
      walk m rot (c1 + c2) w la
        = ((walk m rot c1 w la).1
            ++ (walk m rot c2 (walk m rot c1 w la).2 (la.drop c1)).1,
          (walk m rot c2 (walk m rot c1 w la).2 (la.drop c1)).2) := by
  intro c1
  induction c1 with
  | zero => intro c2 w la; simp [walk]
  | succ c1 ih =>
    intro c2 w la
    rw [Nat.succ_add, walk, walk]
    simp only [ih c2 (rot w (la.headD false)) la.tail, drop_tail_eq, List.cons_append]

lemma walk_nil_eq (m : RuleKey → Plant) (rot : List Plant → Plant → List Plant) :
    ∀ (n : Nat) (w : List Plant),
      walk m rot n w [] = (falseVals m rot n w, rotIterI rot n w) := by
  intro n
  induction n with
  | zero => intro w; rfl
  | succ n ih => intro w; rw [walk, falseVals, rotIterI]; simp [ih]

lemma walk_win_length (m : RuleKey → Plant) (rot : List Plant → Plant → List Plant)
    (Hlen : ∀ w p, w.length = 5 → (rot w p).length = 5) :
    ∀ (n : Nat) (w la : List Plant), w.length = 5 → ((walk m rot n w la).2).length = 5 := by
  intro n
  induction n with
  | zero => intro w la h; exact h
  | succ n ih => intro w la h; rw [walk]; exact ih _ _ (Hlen w _ h)

lemma rotIterI_add (rot : List Plant → Plant → List Plant) :
    ∀ (a b : Nat) (w : List Plant),
      rotIterI rot (a + b) w = rotIterI rot b (rotIterI rot a w) := by
  intro a
  induction a with
  | zero => intro b w; rw [Nat.zero_add]; rfl
  | succ a ih => intro b w; rw [Nat.succ_add, rotIterI, rotIterI, ih]

lemma falseVals_add (m : RuleKey → Plant) (rot : List Plant → Plant → List Plant) :
    ∀ (a b : Nat) (w : List Plant),
      falseVals m rot (a + b) w
        = falseVals m rot a w ++ falseVals m rot b (rotIterI rot a w) := by
  intro a
  induction a with
  | zero => intro b w; rw [Nat.zero_add]; rfl
  | succ a ih => intro b w; rw [Nat.succ_add, falseVals, falseVals, rotIterI, ih]; rfl

lemma falseVals_length (m : RuleKey → Plant) (rot : List Plant → Plant → List Plant) :
    ∀ (n : Nat) (w : List Plant), (falseVals m rot n w).length = n := by
  intro n
  induction n with
  | zero => intro w; rfl
  | succ n ih => intro w; rw [falseVals]; simp [ih]

lemma growGo_some_iff (m : RuleKey → Plant) (rot : List Plant → Plant → List Plant) :
    ∀ (f : Nat) (w : List Plant) (g : Nat),
      growGo m rot f w = some g
        ↔ (g < f ∧ falseVals m rot g w = List.replicate g true
            ∧ m (rotIterI rot (g + 1) w) = false) := by
  intro f
  induction f with
  | zero =>
    intro w g
    constructor
    · intro h; cases h
    · intro h; exact absurd h.1 (Nat.not_lt_zero g)
  | succ f ih =>
    intro w g
    rw [growGo]
    cases hv : m (rot w false) with
    | false =>
      simp only [Bool.false_eq_true, if_false]
      constructor
      · intro h
        cases h
        refine ⟨Nat.succ_pos f, rfl, ?_⟩
        show m (rotIterI rot 0 (rot w false)) = false
        exact hv
      · intro ⟨_, hfv, _⟩
        cases g with
        | zero => rfl
        | succ g =>
          rw [falseVals, List.replicate_succ] at hfv
          rw [hv] at hfv
          cases hfv
    | true =>
      simp only [if_true]
      constructor
      · intro h
        obtain ⟨g0, hg0, rfl⟩ := Option.map_eq_some'.mp h
        obtain ⟨h1, h2, h3⟩ := (ih _ g0).mp hg0
        refine ⟨Nat.succ_lt_succ h1, ?_, h3⟩
        rw [falseVals, List.replicate_succ, hv, h2]
      · intro ⟨h1, h2, h3⟩
        cases g with
        | zero =>
          rw [show rotIterI rot (0 + 1) w = rot w false from rfl] at h3
          rw [hv] at h3; cases h3
        | succ g =>
          rw [falseVals, List.replicate_succ, hv] at h2
          have h2' := List.cons_injective.eq_iff.mp h2
          rw [Option.map_eq_some']
          exact ⟨g, (ih _ g).mpr ⟨Nat.lt_of_succ_lt_succ h1, h2', h3⟩, rfl⟩

lemma growGo_none_iff (m : RuleKey → Plant) (rot : List Plant → Plant → List Plant) :
    ∀ (f : Nat) (w : List Plant),
      growGo m rot f w = none ↔ falseVals m rot f w = List.replicate f true := by
  intro f
  induction f with
  | zero => intro w; simp [growGo, falseVals]
  | succ f ih =>
    intro w
    rw [growGo]
    cases hv : m (rot w false) with
    | false =>
      simp only [Bool.false_eq_true, if_false]
      constructor
      · intro h; cases h
      · intro h
        rw [falseVals, List.replicate_succ, hv] at h
        cases h
    | true =>
      simp only [if_true]
      rw [falseVals, List.replicate_succ, hv]
      constructor
      · intro h
        rw [Option.map_eq_none'] at h
        rw [(ih _).mp h]
      · intro h
        have h' := List.cons_injective.eq_iff.mp h
        rw [Option.map_eq_none']
        exact (ih _).mpr h'

lemma len5_cases (w : List Plant) (h : w.length = 5) :
    ∃ a b c d e, w = [a, b, c, d, e] := by
  rcases w with _ | ⟨a, w⟩
  · simp at h
  rcases w with _ | ⟨b, w⟩
  · simp at h
  rcases w with _ | ⟨c, w⟩
  · simp at h
  rcases w with _ | ⟨d, w⟩
  · simp at h
  rcases w with _ | ⟨e, w⟩
  · simp at h
  rcases w with _ | ⟨f, w⟩
  · exact ⟨a, b, c, d, e, rfl⟩
  · simp at h

lemma rotIterI_allF (rot : List Plant → Plant → List Plant)
    (HallF : rot (List.replicate 5 false) false = List.replicate 5 false) :
    ∀ j, rotIterI rot j (List.replicate 5 false) = List.replicate 5 false := by
  intro j
  induction j with
  | zero => rfl
  | succ j ih => rw [rotIterI, HallF]; exact ih

lemma rotIterI_stable (rot : List Plant → Plant → List Plant)
    (HallF : rot (List.replicate 5 false) false = List.replicate 5 false)
    (Hfix : ∀ w, w.length = 5 → rotIterI rot 5 w = List.replicate 5 false)
    (w : List Plant) (hw : w.length = 5) (k : Nat) (hk : 5 ≤ k) :
    rotIterI rot k w = List.replicate 5 false := by
  obtain ⟨j, rfl⟩ : ∃ j, k = 5 + j := ⟨k - 5, by omega⟩
  rw [rotIterI_add, Hfix w hw]
  exact rotIterI_allF rot HallF j

lemma falseVals_all_true (m : RuleKey → Plant) (rot : List Plant → Plant → List Plant) :
    ∀ (f : Nat) (w : List Plant), falseVals m rot f w = List.replicate f true →
      ∀ j, 1 ≤ j → j ≤ f → m (rotIterI rot j w) = true := by
  intro f
  induction f with
  | zero => intro w _ j h1 h2; omega
  | succ f ih =>
    intro w hfv j h1 h2
    rw [falseVals, List.replicate_succ] at hfv
    injection hfv with hv ht
    cases j with
    | zero => omega
    | succ j' =>
      cases Nat.eq_zero_or_pos j' with
      | inl h0 => subst h0; exact hv
      | inr hpos =>
        rw [show rotIterI rot (j' + 1) w = rotIterI rot j' (rot w false) from rfl]
        exact ih (rot w false) ht j' hpos (by omega)

lemma growCount_unshift (m : RuleKey → Plant) (rot : List Plant → Plant → List Plant)
    (HallF : rot (List.replicate 5 false) false = List.replicate 5 false)
    (Hfix : ∀ w, w.length = 5 → rotIterI rot 5 w = List.replicate 5 false)
    (w : List Plant) (hw : w.length = 5) (n g' : Nat)
    (h : growCount m rot (rotIterI rot n w) = some g') :
    ∃ g, growCount m rot w = some g := by
  cases hg : growCount m rot w with
  | some g => exact ⟨g, rfl⟩
  | none =>
    exfalso
    have hall := (growGo_none_iff m rot 5 w).mp hg
    have htrue : ∀ j, 1 ≤ j → m (rotIterI rot j w) = true := by
      intro j h1
      by_cases hj : j ≤ 5
      · exact falseVals_all_true m rot 5 w hall j h1 hj
      · rw [rotIterI_stable rot HallF Hfix w hw j (by omega)]
        have h5 := falseVals_all_true m rot 5 w hall 5 (by omega) (by omega)
        rw [rotIterI_stable rot HallF Hfix w hw 5 (by omega)] at h5
        exact h5
    have hfalse := ((growGo_some_iff m rot 5 (rotIterI rot n w) g').mp h).2.2
    rw [← rotIterI_add] at hfalse
    rw [htrue (n + (g' + 1)) (by omega)] at hfalse
    cases hfalse

lemma growCount_shift_le (m : RuleKey → Plant) (rot : List Plant → Plant → List Plant)
    (w : List Plant) (g n : Nat)
    (h : growCount m rot w = some g) (hn : n ≤ g) :
    falseVals m rot n w = List.replicate n true
      ∧ growCount m rot (rotIterI rot n w) = some (g - n) := by
  obtain ⟨hlt, hfv, hlast⟩ := (growGo_some_iff m rot 5 w g).mp h
  obtain ⟨d, rfl⟩ : ∃ d, g = n + d := ⟨g - n, by omega⟩
  rw [falseVals_add, List.replicate_add] at hfv
  have hlens : (falseVals m rot n w).length = (List.replicate n (true : Plant)).length := by
    rw [falseVals_length, List.length_replicate]
  obtain ⟨h1, h2⟩ := List.append_inj hfv hlens
  refine ⟨h1, ?_⟩
  rw [show n + d - n = d from by omega]
  apply (growGo_some_iff m rot 5 (rotIterI rot n w) d).mpr
  refine ⟨by omega, h2, ?_⟩
  rw [← rotIterI_add, show n + (d + 1) = n + d + 1 from by omega]
  exact hlast

lemma falseVals_gap (m : RuleKey → Plant) (rot : List Plant → Plant → List Plant)
    (w : List Plant) (g n : Nat)
    (h : growCount m rot w = some g) (hn : g < n) :
    falseVals m rot n w
      = List.replicate g true
        ++ false :: falseVals m rot (n - g - 1) (rotIterI rot (g + 1) w) := by
  obtain ⟨hlt, hfv, hlast⟩ := (growGo_some_iff m rot 5 w g).mp h
  obtain ⟨d, rfl⟩ : ∃ d, n = (g + 1) + d := ⟨n - g - 1, by omega⟩
  rw [falseVals_add m rot (g + 1) d, falseVals_add m rot g 1, hfv]
  rw [show (g + 1) + d - g - 1 = d from by omega]
  have h1 : falseVals m rot 1 (rotIterI rot g w) = [false] := by
    rw [falseVals, falseVals]
    rw [show rot (rotIterI rot g w) false = rotIterI rot 1 (rotIterI rot g w) from rfl,
      ← rotIterI_add, hlast]
  rw [h1, List.append_assoc]
  rfl

lemma dTF_cons_of_ne (a : Plant) (l : List Plant) (h : dTF l ≠ []) :
    dTF (a :: l) = a :: dTF l := by
  rw [dTF]
  cases hd : dTF l with
  | nil => exact absurd hd h
  | cons x xs => rfl

lemma dTF_append_nil (A B : List Plant) (h : dTF B = []) : dTF (A ++ B) = dTF A := by
  induction A with
  | nil => rw [List.nil_append, h]; rfl
  | cons a A ih =>
    rw [List.cons_append, dTF, ih, dTF]

lemma dTF_append_cons (A B : List Plant) (b : Plant) (B2 : List Plant)
    (h : dTF B = b :: B2) : dTF (A ++ B) = A ++ b :: B2 := by
  induction A with
  | nil => rw [List.nil_append, h]; rfl
  | cons a A ih =>
    rw [List.cons_append, dTF_cons_of_ne a _ (by rw [ih]; simp), ih, List.cons_append]

lemma dTF_self_append (A : List Plant) : ∃ junk, A = dTF A ++ junk := by
  induction A with
  | nil => exact ⟨[], rfl⟩
  | cons a A ih =>
    obtain ⟨j, hj⟩ := ih
    rw [dTF]
    cases hd : dTF A with
    | nil =>
      cases a with
      | false => exact ⟨false :: A, rfl⟩
      | true => refine ⟨j, ?_⟩; rw [hd, List.nil_append] at hj; rw [← hj]; rfl
    | cons x xs =>
      refine ⟨j, ?_⟩
      rw [hd] at hj
      rw [List.cons_append, ← hj]

lemma dTF_replicate_true (g : Nat) : dTF (List.replicate g true) = List.replicate g true := by
  induction g with
  | zero => rfl
  | succ g ih =>
    rw [List.replicate_succ]
    cases g with
    | zero => rfl
    | succ g' =>
      rw [dTF_cons_of_ne true _ (by rw [ih]; simp [List.replicate_succ]), ih]

/-! Properties of the two rotation functions needed for the padding claim. -/

lemma rotL_allF : rotL (List.replicate 5 false) false = List.replicate 5 false := rfl

lemma rotR_allF : rotR (List.replicate 5 false) false = List.replicate 5 false := rfl

lemma rotL_len (w : List Plant) (p : Plant) (h : w.length = 5) : (rotL w p).length = 5 := by
  simp [rotL, List.length_take, h]

lemma rotR_len (w : List Plant) (p : Plant) (h : w.length = 5) : (rotR w p).length = 5 := by
  simp [rotR, List.length_drop, h]

lemma rotL_fix (w : List Plant) (h : w.length = 5) :
    rotIterI rotL 5 w = List.replicate 5 false := by
  obtain ⟨a, b, c, d, e, rfl⟩ := len5_cases w h
  rfl

lemma rotR_five (a b c d e p : Plant) : rotR [a, b, c, d, e] p = [b, c, d, e, p] := rfl

lemma rotR_fix (w : List Plant) (h : w.length = 5) :
    rotIterI rotR 5 w = List.replicate 5 false := by
  obtain ⟨a, b, c, d, e, rfl⟩ := len5_cases w h
  show rotIterI rotR 4 (rotR [a, b, c, d, e] false) = List.replicate 5 false
  rw [rotR_five]
  show rotIterI rotR 3 (rotR [b, c, d, e, false] false) = List.replicate 5 false
  rw [rotR_five]
  show rotIterI rotR 2 (rotR [c, d, e, false, false] false) = List.replicate 5 false
  rw [rotR_five]
  show rotIterI rotR 1 (rotR [d, e, false, false, false] false) = List.replicate 5 false
  rw [rotR_five]
  show rotIterI rotR 0 (rotR [e, false, false, false, false] false) = List.replicate 5 false
  rw [rotR_five]
  rfl

lemma look_drop (l : List Plant) (d i : Nat) : look (l.drop d) i = look l (d + i) := by
  rw [look, look, List.get?_drop]

lemma stepDir_eq (m : RuleKey → Plant) (rot : List Plant → Plant → List Plant)
    (w olds : List Plant) :
    stepDir m rot w olds
      = (growCount m rot (walk m rot olds.length w (olds.drop 2)).2).map
          (fun g => dTF ((walk m rot olds.length w (olds.drop 2)).1 ++ List.replicate g true)) :=
  rfl

/-- One direction of the padding comparison: if the step succeeds on the
padded side list it succeeds on the unpadded one, and the unpadded result is
a prefix of the padded result. -/
lemma stepDir_pad (m : RuleKey → Plant) (rot : List Plant → Plant → List Plant)
    (HallF : rot (List.replicate 5 false) false = List.replicate 5 false)
    (Hfix : ∀ w, w.length = 5 → rotIterI rot 5 w = List.replicate 5 false)
    (Hlen : ∀ w p, w.length = 5 → (rot w p).length = 5)
    (w olds : List Plant) (hw : w.length = 5) (n : Nat) (R' : List Plant)
    (h : stepDir m rot w (olds ++ List.replicate n false) = some R') :
    ∃ R, stepDir m rot w olds = some R ∧ ∃ ext, R' = R ++ ext := by
  rw [stepDir_eq] at h
  have hlen' : (olds ++ List.replicate n false).length = olds.length + n := by simp
  have hcongr : walk m rot (olds.length + n) w ((olds ++ List.replicate n false).drop 2)
      = walk m rot (olds.length + n) w (olds.drop 2) := by
    apply walk_congr
    intro i
    rw [look_drop, look_drop, look_append_replicate_false]
  have hdropL : (olds.drop 2).drop olds.length = [] := by
    rw [List.drop_drop]
    exact List.drop_eq_nil_of_le (by simp)
  simp only [hlen', hcongr, walk_split m rot olds.length n w (olds.drop 2), hdropL,
    walk_nil_eq] at h
  obtain ⟨g', hg', hR'⟩ := Option.map_eq_some'.mp h
  subst hR'
  set W1 := (walk m rot olds.length w (olds.drop 2)).2 with hW1
  set A1 := (walk m rot olds.length w (olds.drop 2)).1 with hA1
  have hW1len : W1.length = 5 := by
    rw [hW1]; exact walk_win_length m rot Hlen olds.length w (olds.drop 2) hw
  obtain ⟨g, hg⟩ := growCount_unshift m rot HallF Hfix W1 hW1len n g' hg'
  refine ⟨dTF (A1 ++ List.replicate g true), ?_, ?_⟩
  · rw [stepDir_eq, ← hW1, ← hA1, hg]
    rfl
  · by_cases hng : n ≤ g
    · obtain ⟨hfv, hgc⟩ := growCount_shift_le m rot W1 g n hg hng
      have hg'' : g' = g - n := (Option.some.inj (hgc.symm.trans hg')).symm
      subst hg''
      refine ⟨[], ?_⟩
      rw [List.append_nil, hfv, List.append_assoc, ← List.replicate_add,
        show n + (g - n) = g from by omega]
    · push_neg at hng
      have hgap := falseVals_gap m rot W1 g n hg hng
      rw [hgap]
      set rest := falseVals m rot (n - g - 1) (rotIterI rot (g + 1) W1) with hrest
      have hassoc : (A1 ++ (List.replicate g true ++ false :: rest)) ++ List.replicate g' true
          = (A1 ++ List.replicate g true) ++ (false :: (rest ++ List.replicate g' true)) := by
        simp [List.append_assoc]
      rw [hassoc]
      cases hB : dTF (false :: (rest ++ List.replicate g' true)) with
      | nil =>
        rw [dTF_append_nil _ _ hB]
        exact ⟨[], by rw [List.append_nil]⟩
      | cons b B2 =>
        rw [dTF_append_cons _ _ b B2 hB]
        obtain ⟨junk, hjunk⟩ := dTF_self_append (A1 ++ List.replicate g true)
        refine ⟨junk ++ b :: B2, ?_⟩
        rw [← List.append_assoc, ← hjunk]

lemma centerWindow_pad (t : Tape) (n k : Nat) :
    centerWindow (padTape t n k) = centerWindow t := by
  simp [centerWindow, padTape, look_append_replicate_false]

lemma centerWindow_len (t : Tape) : (centerWindow t).length = 5 := rfl

lemma stepFn_eq (m : RuleKey → Plant) (t : Tape) :
    stepFn m t
      = match stepDir m rotL (centerWindow t) t.left,
          stepDir m rotR (centerWindow t) t.right with
        | some l, some r => some ⟨l, m (centerWindow t), r⟩
        | _, _ => none := rfl

/-- C2 counterexample: with the single rule `#.... => #` the tape `"#"`
(trimmed, reachable as `fromInitial "#"`) steps to the all-false tape `"."`,
while the equivalent padded tape `"#.."` — the same true-cell extent plus two
explicit false cells — steps to `"..#"`: the walk of the trimmed run stops at
its first false frontier write and misses the true cell two positions out, so
the two resulting tape strings differ. -/
theorem claim_c2_counterexample :
    Pot.from_initial "#" = some ⟨[], true, []⟩
      ∧ padTape ⟨[], true, []⟩ 0 2 = ⟨[], true, [false, false]⟩
      ∧ (Rules.from_lines ["#.... => #"]).map
          (fun r => ((stepFn (rulesGet r) ⟨[], true, []⟩).map tapeStr,
                     (stepFn (rulesGet r) (padTape ⟨[], true, []⟩ 0 2)).map tapeStr))
        = some (some ".", some "..#")
      ∧ (some "." : Option String) ≠ some "..#" := by
  refine ⟨rfl, rfl, by decide, by decide⟩

/-- C2 amended: padding with explicit false cells never changes the step
result on the region the unpadded run updates; precisely, whenever `step`
terminates on the padded tape it terminates on the unpadded tape, the two
results agree on the root, and per direction the unpadded result is a prefix
of the padded result (the padded run may produce additional true cells
farther out that the unpadded walk stops short of). -/
theorem claim_c2_amended (m : RuleKey → Plant) (t : Tape) (n k : Nat) (t' : Tape)
    (h : stepFn m (padTape t n k) = some t') :
    ∃ t₀, stepFn m t = some t₀ ∧ t₀.root = t'.root
      ∧ (∃ el, t'.left = t₀.left ++ el) ∧ (∃ er, t'.right = t₀.right ++ er) := by
  rw [stepFn_eq, centerWindow_pad] at h
  have hpl : (padTape t n k).left = t.left ++ List.replicate n false := rfl
  have hpr : (padTape t n k).right = t.right ++ List.replicate k false := rfl
  rw [hpl, hpr] at h
  cases hL : stepDir m rotL (centerWindow t) (t.left ++ List.replicate n false) with
  | none => rw [hL] at h; cases h
  | some L' =>
    cases hR : stepDir m rotR (centerWindow t) (t.right ++ List.replicate k false) with
    | none => rw [hL, hR] at h; cases h
    | some R' =>
      rw [hL, hR] at h
      have ht' : t' = ⟨L', m (centerWindow t), R'⟩ := (Option.some.inj h).symm
      subst ht'
      obtain ⟨L₀, hL₀, el, hel⟩ :=
        stepDir_pad m rotL rotL_allF rotL_fix rotL_len (centerWindow t) t.left
          (centerWindow_len t) n L' hL
      obtain ⟨R₀, hR₀, er, her⟩ :=
        stepDir_pad m rotR rotR_allF rotR_fix rotR_len (centerWindow t) t.right
          (centerWindow_len t) k R' hR
      refine ⟨⟨L₀, m (centerWindow t), R₀⟩, ?_, rfl, ⟨el, hel⟩, ⟨er, her⟩⟩
      rw [stepFn_eq, hL₀, hR₀]

/-- C2 witness: the amended theorem applied at the all-false rule function,
the bare anchor tape and pads 1 and 2. -/
theorem claim_c2_amended_witness :
    ∃ t₀, stepFn (fun _ => false) ⟨[], true, []⟩ = some t₀
      ∧ t₀.root = (⟨[], false, []⟩ : Tape).root
      ∧ (∃ el, (⟨[], false, []⟩ : Tape).left = t₀.left ++ el)
      ∧ (∃ er, (⟨[], false, []⟩ : Tape).right = t₀.right ++ er) :=
  claim_c2_amended (fun _ => false) ⟨[], true, []⟩ 1 2 ⟨[], false, []⟩ (by decide)

/-! ## Claim C8: the pointer-level linkage model

`Pot.append` asserts that the parent has no neighbour in the link direction,
then sets the parent's pointer and overwrites the child's reverse pointer
unconditionally; `Pot.detach` asserts a neighbour exists and clears both
pointers.  Frontier materialisation (`PotentialPot.plant` setter) creates a
brand-new pot and `append`s it to the chain end.  We model the pots as a heap
of nodes addressed by index; `none` models a failed `assert`. -/

/-- A link direction (the `'left'`/`'right'` strings of the source). -/
inductive Dir where
  | left : Dir
  | right : Dir
deriving DecidableEq, Repr

/-- `_reverse`. -/
def Dir.rev : Dir → Dir
  | .left => .right
  | .right => .left

/-- One `Pot`: its plant value and its two neighbour pointers. -/
structure PNode where
  plant : Plant
  left : Option Nat
  right : Option Nat
deriving DecidableEq, Repr

/-- All pots, addressed by index. -/
abbrev Heap := List PNode

/-- `getattr(pot, dir)`. -/
def getDir (p : PNode) : Dir → Option Nat
  | .left => p.left
  | .right => p.right

/-- `setattr(pot, dir, v)`. -/
def setDir (p : PNode) : Dir → Option Nat → PNode
  | .left, v => { p with left := v }
  | .right, v => { p with right := v }

/-- The right neighbour pointer of the node at `a`. -/
def rightOf (h : Heap) (a : Nat) : Option Nat := (h.get? a).bind PNode.right

/-- The left neighbour pointer of the node at `a`. -/
def leftOf (h : Heap) (a : Nat) : Option Nat := (h.get? a).bind PNode.left

/-- `Pot.append(self, dir, pot)`: assert `getattr(self, dir) is None`, set
`self`'s pointer to `pot` and overwrite `pot`'s reverse pointer (no check on
the child's side). -/
def appendOp (h : Heap) (a : Nat) (d : Dir) (b : Nat) : Option Heap :=
  match h.get? a with
  | none => none
  | some na =>
    match getDir na d with
    | some _ => none
    | none =>
      let h1 := h.set a (setDir na d (some b))
      match h1.get? b with
      | none => none
      | some nb => some (h1.set b (setDir nb d.rev (some a)))

/-- `Pot.detach(self, dir)`: assert a neighbour exists, then clear both
pointers (the source returns the detached neighbour; only the heap matters
for the invariants). -/
def detachOp (h : Heap) (a : Nat) (d : Dir) : Option Heap :=
  match h.get? a with
  | none => none
  | some na =>
    match getDir na d with
    | none => none
    | some b =>
      let h1 := h.set a (setDir na d none)
      match h1.get? b with
      | none => none
      | some nb => some (h1.set b (setDir nb d.rev none))

/-- Frontier materialisation: `self._linked = Pot(plant);
self.parent.append(self.dir, self._linked)` — a brand-new node (both
pointers empty, nothing pointing at it) appended at the chain end. -/
def linkFresh (h : Heap) (a : Nat) (d : Dir) (p : Plant) : Option Heap :=
  match h.get? a with
  | none => none
  | some na =>
    match getDir na d with
    | some _ => none
    | none => some ((h.set a (setDir na d (some h.length)))
        ++ [setDir ⟨p, none, none⟩ d.rev (some a)])

/-- The linkage operations of the claim. -/
inductive HOp where
  | link : Nat → Dir → Nat → HOp
  | unlink : Nat → Dir → HOp
  | materialize : Nat → Dir → Plant → HOp
deriving DecidableEq, Repr

/-- `true` for the operations the program actually performs: `unlink` and
linking of freshly created pots (initial construction and Frontier
materialisation); `false` for a general `link` of two existing pots. -/
def HOp.fresh_only : HOp → Bool
  | .link _ _ _ => false
  | _ => true

def applyOp (h : Heap) : HOp → Option Heap
  | .link a d b => appendOp h a d b
  | .unlink a d => detachOp h a d
  | .materialize a d p => linkFresh h a d p

def applyOps : List HOp → Heap → Option Heap
  | [], h => some h
  | op :: ops, h =>
    match applyOp h op with
    | some h' => applyOps ops h'
    | none => none

/-- Iterated `right` pointer: follow the chain `k` hops to the right. -/
def iterR (h : Heap) : Nat → Nat → Option Nat
  | 0, a => some a
  | k + 1, a =>
    match rightOf h a with
    | none => none
    | some b => iterR h k b

/-- Symmetric linkage: `a.right == b` iff `b.left == a`. -/
def symmLinked (h : Heap) : Prop := ∀ a b, rightOf h a = some b ↔ leftOf h b = some a

/-- No cycles: following `right` never returns to the start. -/
def noRCycle (h : Heap) : Prop := ∀ a k, 0 < k → iterR h k a ≠ some a

/-- Well-formedness of the pot heap. -/
def wfHeap (h : Heap) : Prop := symmLinked h ∧ noRCycle h

/-- Neighbour pointer in a given direction. -/
def dirPtr (h : Heap) (a : Nat) (d : Dir) : Option Nat :=
  (h.get? a).bind (fun n => getDir n d)

lemma rightOf_eq_dirPtr (h : Heap) (a : Nat) : rightOf h a = dirPtr h a .right := rfl

lemma leftOf_eq_dirPtr (h : Heap) (a : Nat) : leftOf h a = dirPtr h a .left := rfl

lemma Dir.rev_ne (d : Dir) : d.rev ≠ d := by cases d <;> decide

lemma Dir.rev_rev (d : Dir) : d.rev.rev = d := by cases d <;> rfl

lemma getDir_setDir (n : PNode) (d : Dir) (v : Option Nat) (d2 : Dir) :
    getDir (setDir n d v) d2 = if d2 = d then v else getDir n d2 := by
  cases d <;> cases d2 <;> simp [getDir, setDir]

lemma getDir_fresh (p : Plant) (d2 : Dir) : getDir ⟨p, none, none⟩ d2 = none := by
  cases d2 <;> rfl

lemma hget_none (h : Heap) (i : Nat) (hi : h.length ≤ i) : h.get? i = none :=
  List.get?_eq_none.mpr hi

lemma hget_some_lt (h : Heap) (i : Nat) (n : PNode) (hn : h.get? i = some n) :
    i < h.length := by
  by_contra hc
  rw [hget_none h i (by omega)] at hn
  cases hn

lemma hget_set_self (h : Heap) (i : Nat) (a : PNode) (hi : i < h.length) :
    (h.set i a).get? i = some a := by
  rw [List.get?_set_eq, List.get?_eq_get hi]
  rfl

lemma hget_set_other (h : Heap) (i j : Nat) (a : PNode) (hij : i ≠ j) :
    (h.set i a).get? j = h.get? j :=
  List.get?_set_ne a h hij

lemma hget_append_lt (h l2 : Heap) (i : Nat) (hi : i < h.length) :
    (h ++ l2).get? i = h.get? i :=
  List.get?_append hi

lemma hget_append_len (h : Heap) (x : PNode) : (h ++ [x]).get? h.length = some x := by
  rw [List.get?_append_right (Nat.le_refl _)]
  simp

lemma ptr_lt (h : Heap) (hs : symmLinked h) (x y : Nat) (d : Dir)
    (hp : dirPtr h x d = some y) : x < h.length ∧ y < h.length := by
  have hx : x < h.length := by
    rw [dirPtr] at hp
    cases hg : h.get? x with
    | none => rw [hg] at hp; cases hp
    | some n => exact hget_some_lt h x n hg
  refine ⟨hx, ?_⟩
  cases d with
  | right =>
    have hl := (hs x y).mp (by rw [rightOf_eq_dirPtr]; exact hp)
    rw [leftOf_eq_dirPtr, dirPtr] at hl
    cases hg : h.get? y with
    | none => rw [hg] at hl; cases hl
    | some n => exact hget_some_lt h y n hg
  | left =>
    have hr := (hs y x).mpr (by rw [leftOf_eq_dirPtr]; exact hp)
    rw [rightOf_eq_dirPtr, dirPtr] at hr
    cases hg : h.get? y with
    | none => rw [hg] at hr; cases hr
    | some n => exact hget_some_lt h y n hg

lemma linkFresh_ptr (h : Heap) (a : Nat) (d : Dir) (p : Plant) (h' : Heap)
    (hl : linkFresh h a d p = some h') :
    ∃ na, h.get? a = some na ∧ getDir na d = none ∧ a < h.length
      ∧ h'.length = h.length + 1
      ∧ ∀ x d2, dirPtr h' x d2 =
          if d2 = d ∧ x = a then some h.length
          else if d2 = d.rev ∧ x = h.length then some a
          else dirPtr h x d2 := by
  rw [linkFresh] at hl
  cases hna : h.get? a with
  | none => rw [hna] at hl; cases hl
  | some na =>
    simp only [hna] at hl
    cases hgd : getDir na d with
    | some c => simp only [hgd] at hl; exact Option.noConfusion hl
    | none =>
      simp only [hgd] at hl
      have ha : a < h.length := hget_some_lt h a na hna
      have hh' : h' = (h.set a (setDir na d (some h.length)))
          ++ [setDir ⟨p, none, none⟩ d.rev (some a)] := (Option.some.inj hl).symm
      have hsetlen : (h.set a (setDir na d (some h.length))).length = h.length :=
        List.length_set h a _
      have hlen' : h'.length = h.length + 1 := by rw [hh']; simp
      refine ⟨na, rfl, hgd, ha, hlen', ?_⟩
      intro x d2
      rcases Nat.lt_trichotomy x h.length with hx | hx | hx
      · -- an old node
        have hgx : h'.get? x = (h.set a (setDir na d (some h.length))).get? x := by
          rw [hh', hget_append_lt _ _ x (by rw [hsetlen]; exact hx)]
        by_cases hxa : x = a
        · subst hxa
          have hl2 : dirPtr h' x d2 = getDir (setDir na d (some h.length)) d2 := by
            rw [dirPtr, hgx, hget_set_self h x _ hx]
            rfl
          have hr2 : dirPtr h x d2 = getDir na d2 := by
            rw [dirPtr, hna]
            rfl
          rw [hl2, getDir_setDir]
          by_cases hd2 : d2 = d
          · simp [hd2]
          · have hxn : ¬ x = h.length := by omega
            simp [hd2, hxn, hr2]
        · have hl2 : dirPtr h' x d2 = dirPtr h x d2 := by
            rw [dirPtr, hgx, hget_set_other h a x _ (fun hh => hxa hh.symm), dirPtr]
          have hxn : ¬ x = h.length := by omega
          simp [hl2, hxa, hxn]
      · -- the fresh node
        have hgx : h'.get? x = some (setDir ⟨p, none, none⟩ d.rev (some a)) := by
          have hax := hget_append_len (h.set a (setDir na d (some h.length)))
            (setDir ⟨p, none, none⟩ d.rev (some a))
          rw [hsetlen] at hax
          rw [hh', hx]
          exact hax
        have hl2 : dirPtr h' x d2 = getDir (setDir ⟨p, none, none⟩ d.rev (some a)) d2 := by
          rw [dirPtr, hgx]
          rfl
        have hr2 : dirPtr h x d2 = none := by
          rw [dirPtr, hget_none h x (by omega)]
          rfl
        rw [hl2, getDir_setDir]
        have hxa : ¬ x = a := by omega
        have hna2 : ¬ (List.length h = a) := by omega
        by_cases hd2 : d2 = d.rev
        · have hd2' : ¬ d2 = d := by rw [hd2]; exact Dir.rev_ne d
          simp [hd2, hd2', hxa, hx, Dir.rev_ne d, hna2]
        · simp only [hx] at hr2
          simp [hd2, hxa, hx, hna2, hr2, getDir_fresh]
      · -- beyond the fresh node
        have hxa : ¬ x = a := by omega
        have hxn : ¬ x = h.length := by omega
        have hl2 : dirPtr h' x d2 = none := by
          rw [dirPtr, hget_none h' x (by rw [hlen']; omega)]
          rfl
        have hr2 : dirPtr h x d2 = none := by
          rw [dirPtr, hget_none h x (by omega)]
          rfl
        simp [hl2, hr2, hxa, hxn]

lemma detach_ptr (h : Heap) (a : Nat) (d : Dir) (h' : Heap)
    (hd : detachOp h a d = some h') :
    ∃ na b, h.get? a = some na ∧ getDir na d = some b ∧ a < h.length ∧ b < h.length
      ∧ h'.length = h.length
      ∧ ∀ x d2, dirPtr h' x d2 =
          if d2 = d ∧ x = a then none
          else if d2 = d.rev ∧ x = b then none
          else dirPtr h x d2 := by
  rw [detachOp] at hd
  cases hna : h.get? a with
  | none => rw [hna] at hd; cases hd
  | some na =>
    simp only [hna] at hd
    cases hgd : getDir na d with
    | none => simp only [hgd] at hd; exact Option.noConfusion hd
    | some b =>
      simp only [hgd] at hd
      have ha : a < h.length := hget_some_lt h a na hna
      cases hnb : (h.set a (setDir na d none)).get? b with
      | none => rw [hnb] at hd; exact Option.noConfusion hd
      | some nb =>
        rw [hnb] at hd
        have hb : b < h.length := by
          have := hget_some_lt _ b nb hnb
          rwa [List.length_set] at this
        have hh' : h' = (h.set a (setDir na d none)).set b (setDir nb d.rev none) :=
          (Option.some.inj hd).symm
        have hlen' : h'.length = h.length := by rw [hh']; simp
        refine ⟨na, b, rfl, hgd, ha, hb, hlen', ?_⟩
        intro x d2
        by_cases hab : a = b
        · -- self-loop target: both pointers of the single node cleared
          subst hab
          have hnb2 : nb = setDir na d none := by
            rw [hget_set_self h a _ ha] at hnb
            exact (Option.some.inj hnb).symm
          subst hnb2
          by_cases hxa : x = a
          · subst hxa
            have hl2 : dirPtr h' x d2
                = getDir (setDir (setDir na d none) d.rev none) d2 := by
              rw [dirPtr, hh', hget_set_self _ x _ (by rw [List.length_set]; exact ha)]
              rfl
            have hr2 : dirPtr h x d2 = getDir na d2 := by rw [dirPtr, hna]; rfl
            rw [hl2, getDir_setDir, getDir_setDir]
            by_cases h1 : d2 = d.rev
            · have h2 : ¬ d2 = d := by rw [h1]; exact Dir.rev_ne d
              simp [h1, h2]
            · by_cases h2 : d2 = d
              · simp [h1, h2]
              · simp [h1, h2, hr2]
          · have hl2 : dirPtr h' x d2 = dirPtr h x d2 := by
              rw [dirPtr, hh', hget_set_other _ a x _ (fun hh => hxa hh.symm),
                hget_set_other _ a x _ (fun hh => hxa hh.symm), dirPtr]
            simp [hl2, hxa]
        · -- distinct parent and neighbour
          have hnb2 : h.get? b = some nb := by
            rw [hget_set_other _ a b _ hab] at hnb
            exact hnb
          by_cases hxa : x = a
          · subst hxa
            have hl2 : dirPtr h' x d2 = getDir (setDir na d none) d2 := by
              rw [dirPtr, hh', hget_set_other _ b x _ (fun hh => hab hh.symm),
                hget_set_self h x _ ha]
              rfl
            have hr2 : dirPtr h x d2 = getDir na d2 := by rw [dirPtr, hna]; rfl
            rw [hl2, getDir_setDir]
            by_cases h2 : d2 = d
            · simp [h2]
            · have hxb : ¬ x = b := hab
              simp [h2, hxb, hr2]
          · by_cases hxb : x = b
            · subst hxb
              have hl2 : dirPtr h' x d2 = getDir (setDir nb d.rev none) d2 := by
                rw [dirPtr, hh',
                  hget_set_self _ x _ (by rw [List.length_set]; exact hb)]
                rfl
              have hr2 : dirPtr h x d2 = getDir nb d2 := by rw [dirPtr, hnb2]; rfl
              rw [hl2, getDir_setDir]
              by_cases h1 : d2 = d.rev
              · simp [h1, hxa]
              · simp [h1, hxa, hr2]
            · have hl2 : dirPtr h' x d2 = dirPtr h x d2 := by
                rw [dirPtr, hh', hget_set_other _ b x _ (fun hh => hxb hh.symm),
                  hget_set_other _ a x _ (fun hh => hxa hh.symm), dirPtr]
              simp [hl2, hxa, hxb]

lemma iterR_mono (h h' : Heap)
    (hsub : ∀ x y, rightOf h' x = some y → rightOf h x = some y) :
    ∀ k x y, iterR h' k x = some y → iterR h k x = some y := by
  intro k
  induction k with
  | zero => intro x y hh; exact hh
  | succ k ih =>
    intro x y hh
    rw [iterR] at hh ⊢
    cases hr : rightOf h' x with
    | none => rw [hr] at hh; cases hh
    | some c =>
      rw [hr] at hh
      rw [hsub x c hr]
      exact ih c y hh

lemma symm_clear_iff (h : Heap) (hs : symmLinked h) (P Q : Nat)
    (hPQ : rightOf h P = some Q) (x y : Nat) :
    ((if x = P then none else rightOf h x) = some y
      ↔ (if y = Q then none else leftOf h y) = some x) := by
  by_cases hx : x = P
  · subst hx
    rw [if_pos rfl]
    constructor
    · intro hh; cases hh
    · intro hh
      by_cases hy : y = Q
      · rw [if_pos hy] at hh; cases hh
      · rw [if_neg hy] at hh
        have h2 := (hs x y).mpr hh
        rw [hPQ] at h2
        exact absurd (Option.some.inj h2).symm hy
  · rw [if_neg hx]
    by_cases hy : y = Q
    · subst hy
      rw [if_pos rfl]
      constructor
      · intro hh
        have h2 := (hs x y).mp hh
        have hQP : leftOf h y = some P := (hs P y).mp hPQ
        rw [hQP] at h2
        exact absurd (Option.some.inj h2).symm hx
      · intro hh; cases hh
    · rw [if_neg hy]
      exact hs x y

lemma detach_preserves (h : Heap) (a : Nat) (d : Dir) (h' : Heap)
    (hw : wfHeap h) (hd : detachOp h a d = some h') : wfHeap h' := by
  obtain ⟨hs, hc⟩ := hw
  obtain ⟨na, b, hna, hgd, ha, hb, hlen, hptr⟩ := detach_ptr h a d h' hd
  have hdp : dirPtr h a d = some b := by rw [dirPtr, hna]; exact hgd
  have hsub : ∀ x y, rightOf h' x = some y → rightOf h x = some y := by
    intro x y hh
    rw [rightOf_eq_dirPtr, hptr x .right] at hh
    split at hh
    · cases hh
    · split at hh
      · cases hh
      · rw [rightOf_eq_dirPtr]; exact hh
  have hcyc : noRCycle h' := by
    intro x k hk hcy
    exact hc x k hk (iterR_mono h h' hsub k x x hcy)
  refine ⟨?_, hcyc⟩
  cases d with
  | right =>
    have hPQ : rightOf h a = some b := by rw [rightOf_eq_dirPtr]; exact hdp
    have hR : ∀ x, rightOf h' x = if x = a then none else rightOf h x := by
      intro x
      rw [rightOf_eq_dirPtr, hptr x .right, rightOf_eq_dirPtr]
      simp [Dir.rev]
    have hL : ∀ y, leftOf h' y = if y = b then none else leftOf h y := by
      intro y
      rw [leftOf_eq_dirPtr, hptr y .left, leftOf_eq_dirPtr]
      simp [Dir.rev]
    intro x y
    rw [hR, hL]
    exact symm_clear_iff h hs a b hPQ x y
  | left =>
    have hPQ : rightOf h b = some a :=
      (hs b a).mpr (by rw [leftOf_eq_dirPtr]; exact hdp)
    have hR : ∀ x, rightOf h' x = if x = b then none else rightOf h x := by
      intro x
      rw [rightOf_eq_dirPtr, hptr x .right, rightOf_eq_dirPtr]
      simp [Dir.rev]
    have hL : ∀ y, leftOf h' y = if y = a then none else leftOf h y := by
      intro y
      rw [leftOf_eq_dirPtr, hptr y .left, leftOf_eq_dirPtr]
      simp [Dir.rev]
    intro x y
    rw [hR, hL]
    exact symm_clear_iff h hs b a hPQ x y

lemma iterR_succ_some (h : Heap) (k a c : Nat) (hr : rightOf h a = some c) :
    iterR h (k + 1) a = iterR h k c := by
  rw [iterR, hr]

lemma iterR_succ_none (h : Heap) (k a : Nat) (hr : rightOf h a = none) :
    iterR h (k + 1) a = none := by
  rw [iterR, hr]

lemma linkFresh_preserves (h : Heap) (a : Nat) (d : Dir) (p : Plant) (h' : Heap)
    (hw : wfHeap h) (hl : linkFresh h a d p = some h') : wfHeap h' := by
  obtain ⟨hs, hc⟩ := hw
  obtain ⟨na, hna, hgd, ha, hlen, hptr⟩ := linkFresh_ptr h a d p h' hl
  have hdp : dirPtr h a d = none := by rw [dirPtr, hna]; exact hgd
  have hN : rightOf h h.length = none := by
    rw [rightOf_eq_dirPtr, dirPtr, hget_none h h.length (Nat.le_refl _)]
    rfl
  have haN : a ≠ h.length := by omega
  cases d with
  | right =>
    have hfree : rightOf h a = none := by rw [rightOf_eq_dirPtr]; exact hdp
    have hR : ∀ x, rightOf h' x = if x = a then some h.length else rightOf h x := by
      intro x
      rw [rightOf_eq_dirPtr, hptr x .right, rightOf_eq_dirPtr]
      simp [Dir.rev, haN.symm]
    have hL : ∀ y, leftOf h' y = if y = h.length then some a else leftOf h y := by
      intro y
      rw [leftOf_eq_dirPtr, hptr y .left, leftOf_eq_dirPtr]
      simp [Dir.rev]
    constructor
    · intro x y
      rw [hR, hL]
      by_cases hx : x = a
      · rw [if_pos hx]
        constructor
        · intro hh
          obtain rfl : y = h.length := (Option.some.inj hh).symm
          rw [if_pos rfl, hx]
        · intro hh
          by_cases hy : y = h.length
          · rw [hy]
          · rw [if_neg hy] at hh
            have h2 := (hs x y).mpr hh
            rw [hx, hfree] at h2
            cases h2
      · rw [if_neg hx]
        by_cases hy : y = h.length
        · rw [if_pos hy]
          constructor
          · intro hh
            have h2 := (ptr_lt h hs x y .right (by rw [← rightOf_eq_dirPtr]; exact hh)).2
            omega
          · intro hh
            exact absurd (Option.some.inj hh).symm hx
        · rw [if_neg hy]
          exact hs x y
    · -- no cycles: the fresh node has no outgoing right pointer
      have hA : ∀ k x y, iterR h' k x = some y → y ≠ h.length → iterR h k x = some y := by
        intro k
        induction k with
        | zero => intro x y hh _; exact hh
        | succ k ih =>
          intro x y hh hy
          cases hr : rightOf h' x with
          | none => rw [iterR_succ_none h' k x hr] at hh; cases hh
          | some c =>
            rw [iterR_succ_some h' k x c hr] at hh
            rw [hR] at hr
            by_cases hx : x = a
            · rw [if_pos hx] at hr
              obtain rfl : c = h.length := (Option.some.inj hr).symm
              cases k with
              | zero => exact absurd (Option.some.inj hh).symm hy
              | succ k2 =>
                have hrn : rightOf h' h.length = none := by
                  rw [hR, if_neg (by omega : ¬ h.length = a)]
                  exact hN
                rw [iterR_succ_none h' k2 h.length hrn] at hh
                cases hh
            · rw [if_neg hx] at hr
              rw [iterR_succ_some h k x c hr]
              exact ih c y hh hy
      intro x k hk hcy
      by_cases hx : x = h.length
      · cases k with
        | zero => omega
        | succ k2 =>
          have hrn : rightOf h' x = none := by
            rw [hR, if_neg (by omega : ¬ x = a), hx]
            exact hN
          rw [iterR_succ_none h' k2 x hrn] at hcy
          cases hcy
      · exact hc x k hk (hA k x x hcy hx)
  | left =>
    have hfree : leftOf h a = none := by rw [leftOf_eq_dirPtr]; exact hdp
    have hR : ∀ x, rightOf h' x = if x = h.length then some a else rightOf h x := by
      intro x
      rw [rightOf_eq_dirPtr, hptr x .right, rightOf_eq_dirPtr]
      simp [Dir.rev]
    have hL : ∀ y, leftOf h' y = if y = a then some h.length else leftOf h y := by
      intro y
      rw [leftOf_eq_dirPtr, hptr y .left, leftOf_eq_dirPtr]
      simp [Dir.rev, haN.symm]
    have hnoN : ∀ x, rightOf h x ≠ some h.length := by
      intro x hh
      have := (ptr_lt h hs x h.length .right (by rw [← rightOf_eq_dirPtr]; exact hh)).2
      omega
    constructor
    · intro x y
      rw [hR, hL]
      by_cases hx : x = h.length
      · rw [if_pos hx]
        constructor
        · intro hh
          obtain rfl : y = a := (Option.some.inj hh).symm
          rw [if_pos rfl, hx]
        · intro hh
          by_cases hy : y = a
          · rw [hy]
          · rw [if_neg hy] at hh
            have h2 := (hs x y).mpr hh
            rw [hx, hN] at h2
            cases h2
      · rw [if_neg hx]
        by_cases hy : y = a
        · rw [if_pos hy]
          constructor
          · intro hh
            have h2 := (hs x y).mp hh
            rw [hy, hfree] at h2
            cases h2
          · intro hh
            exact absurd (Option.some.inj hh).symm hx
        · rw [if_neg hy]
          exact hs x y
    · -- no cycles: no old pointer reaches the fresh node
      have hB : ∀ k x y, x ≠ h.length → iterR h' k x = some y →
          iterR h k x = some y ∧ y ≠ h.length := by
        intro k
        induction k with
        | zero =>
          intro x y hx hh
          have hxy : x = y := Option.some.inj hh
          exact ⟨hh, fun hyN => hx (by rw [hxy]; exact hyN)⟩
        | succ k ih =>
          intro x y hx hh
          cases hr : rightOf h' x with
          | none => rw [iterR_succ_none h' k x hr] at hh; cases hh
          | some c =>
            rw [iterR_succ_some h' k x c hr] at hh
            rw [hR, if_neg hx] at hr
            have hcN : c ≠ h.length := by
              intro hcc
              rw [hcc] at hr
              exact hnoN x hr
            obtain ⟨h1, h2⟩ := ih c y hcN hh
            rw [iterR_succ_some h k x c hr]
            exact ⟨h1, h2⟩
      intro x k hk hcy
      by_cases hx : x = h.length
      · cases k with
        | zero => omega
        | succ k2 =>
          have hra : rightOf h' x = some a := by rw [hR, if_pos hx]
          rw [iterR_succ_some h' k2 x a hra] at hcy
          obtain ⟨_, h2⟩ := hB k2 a x (by omega) hcy
          exact h2 hx
      · obtain ⟨h1, _⟩ := hB k x x hx hcy
        exact hc x k hk h1

lemma applyOps_wf : ∀ (ops : List HOp) (h h' : Heap),
    (∀ op ∈ ops, op.fresh_only = true) → wfHeap h → applyOps ops h = some h' →
      wfHeap h' := by
  intro ops
  induction ops with
  | nil =>
    intro h h' _ hw happ
    rw [applyOps] at happ
    rw [← Option.some.inj happ]
    exact hw
  | cons op ops ih =>
    intro h h' hops hw happ
    rw [applyOps] at happ
    cases hop : applyOp h op with
    | none => rw [hop] at happ; cases happ
    | some h1 =>
      rw [hop] at happ
      have hw1 : wfHeap h1 := by
        have hf := hops op (List.mem_cons_self op ops)
        cases op with
        | link a d b => rw [HOp.fresh_only] at hf; cases hf
        | unlink a d => exact detach_preserves h a d h1 hw hop
        | materialize a d p => exact linkFresh_preserves h a d p h1 hw hop
      exact ih h1 h' (fun o ho => hops o (List.mem_cons_of_mem op ho)) hw1 happ

lemma linkFresh_isNone_iff (h : Heap) (a : Nat) (d : Dir) (p : Plant) (na : PNode)
    (hna : h.get? a = some na) :
    (linkFresh h a d p).isNone = true ↔ getDir na d ≠ none := by
  rw [linkFresh]
  simp only [hna]
  cases hgd : getDir na d with
  | none => simp [hgd]
  | some c => simp [hgd]

lemma detachOp_isNone_iff (h : Heap) (hs : symmLinked h) (a : Nat) (d : Dir) (na : PNode)
    (hna : h.get? a = some na) :
    (detachOp h a d).isNone = true ↔ getDir na d = none := by
  rw [detachOp]
  simp only [hna]
  cases hgd : getDir na d with
  | none => simp [hgd]
  | some b =>
    simp only [hgd]
    have hdp : dirPtr h a d = some b := by rw [dirPtr, hna]; exact hgd
    have hb : b < h.length := (ptr_lt h hs a b d hdp).2
    cases hnb : (h.set a (setDir na d none)).get? b with
    | none =>
      have hlt : b < (h.set a (setDir na d none)).length := by
        rw [List.length_set]; exact hb
      rw [List.get?_eq_get hlt] at hnb
      cases hnb
    | some nb => simp [hnb]

lemma appendOp_isNone_iff (h : Heap) (a : Nat) (d : Dir) (b : Nat) (na nb : PNode)
    (hna : h.get? a = some na) (hnb : h.get? b = some nb) :
    (appendOp h a d b).isNone = true ↔ getDir na d ≠ none := by
  rw [appendOp]
  simp only [hna]
  cases hgd : getDir na d with
  | some c => simp [hgd]
  | none =>
    simp only [hgd]
    have hb : b < h.length := hget_some_lt h b nb hnb
    cases hnb2 : (h.set a (setDir na d (some b))).get? b with
    | none =>
      have hlt : b < (h.set a (setDir na d (some b))).length := by
        rw [List.length_set]; exact hb
      rw [List.get?_eq_get hlt] at hnb2
      cases hnb2
    | some nb2 => simp [hnb2]

/-- The three-pot chain `0 → 1 → 2` with symmetric back links. -/
def chain3 : Heap :=
  [⟨true, none, some 1⟩, ⟨true, some 0, some 2⟩, ⟨true, some 1, none⟩]

/-- The heap after `append(pot2, right, pot1)`: pot2's right pointer and
pot1's left pointer now both point across, but pot0's right pointer still
points at pot1 whose left pointer no longer points back. -/
def brokenChain : Heap :=
  [⟨true, none, some 1⟩, ⟨true, some 2, some 2⟩, ⟨true, some 1, some 1⟩]

lemma chain3_right_inv (a b : Nat) (hh : rightOf chain3 a = some b) :
    (a = 0 ∧ b = 1) ∨ (a = 1 ∧ b = 2) := by
  match a with
  | 0 => exact Or.inl ⟨rfl, (Option.some.inj hh).symm⟩
  | 1 => exact Or.inr ⟨rfl, (Option.some.inj hh).symm⟩
  | 2 => cases hh
  | n + 3 => cases hh

lemma chain3_left_inv (a b : Nat) (hh : leftOf chain3 b = some a) :
    (b = 1 ∧ a = 0) ∨ (b = 2 ∧ a = 1) := by
  match b with
  | 0 => cases hh
  | 1 => exact Or.inl ⟨rfl, (Option.some.inj hh).symm⟩
  | 2 => exact Or.inr ⟨rfl, (Option.some.inj hh).symm⟩
  | n + 3 => cases hh

lemma chain3_wf : wfHeap chain3 := by
  constructor
  · intro a b
    constructor
    · intro hh
      rcases chain3_right_inv a b hh with ⟨ha, hb⟩ | ⟨ha, hb⟩ <;> rw [ha, hb] <;> rfl
    · intro hh
      rcases chain3_left_inv a b hh with ⟨hb, ha⟩ | ⟨hb, ha⟩ <;> rw [ha, hb] <;> rfl
  · have hmono : ∀ k a b, iterR chain3 k a = some b → a + k ≤ b := by
      intro k
      induction k with
      | zero =>
        intro a b hh
        have : a = b := Option.some.inj hh
        omega
      | succ k ih =>
        intro a b hh
        cases hr : rightOf chain3 a with
        | none => rw [iterR_succ_none _ _ _ hr] at hh; cases hh
        | some c =>
          rw [iterR_succ_some _ _ _ _ hr] at hh
          have h2 := ih c b hh
          rcases chain3_right_inv a c hr with ⟨ha, hc⟩ | ⟨ha, hc⟩ <;> omega
    intro a k hk hcy
    have := hmono k a a hcy
    omega

/-- C8 counterexample: starting from the well-formed chain `0 – 1 – 2`, the
single operation `link(pot2, right, pot1)` passes its only precondition
check (pot2's right pointer is empty) yet produces a heap where
`pot0.right == pot1` but `pot1.left == pot2 ≠ pot0` — symmetric linkage is
not an invariant under arbitrary link operations. -/
theorem claim_c8_counterexample :
    wfHeap chain3
      ∧ applyOps [HOp.link 2 Dir.right 1] chain3 = some brokenChain
      ∧ rightOf brokenChain 0 = some 1
      ∧ leftOf brokenChain 1 = some 2
      ∧ ¬ symmLinked brokenChain := by
  refine ⟨chain3_wf, rfl, rfl, rfl, ?_⟩
  intro hsym
  have h2 := (hsym 0 1).mp rfl
  exact absurd h2 (by decide)

/-- C8 amended: symmetric linkage and acyclicity are invariant under every
sequence of unlink and Frontier-materialisation operations — the only linking
the program performs attaches a freshly created, fully unlinked pot
(`Pot.from_initial` and `PotentialPot.plant` both append a brand-new node); a
general `link` of two already-existing pots checks only the parent's pointer
and can break symmetry (see the counterexample).  Moreover `link` fails
exactly when the parent already has a neighbour in the link direction, and
`unlink` exactly when it has none — on valid pots these are the only failure
modes. -/
theorem claim_c8_amended (ops : List HOp) (h h' : Heap)
    (hops : ∀ op ∈ ops, op.fresh_only = true)
    (hw : wfHeap h) (happ : applyOps ops h = some h') :
    ((∀ a b, rightOf h' a = some b ↔ leftOf h' b = some a)
        ∧ (∀ a k, 0 < k → iterR h' k a ≠ some a))
      ∧ ∀ (h2 : Heap) (a : Nat) (d : Dir) (na : PNode), h2.get? a = some na →
          (∀ p, (linkFresh h2 a d p).isNone = true ↔ getDir na d ≠ none)
            ∧ (symmLinked h2 → ((detachOp h2 a d).isNone = true ↔ getDir na d = none))
            ∧ ∀ (b : Nat) (nb : PNode), h2.get? b = some nb →
                ((appendOp h2 a d b).isNone = true ↔ getDir na d ≠ none) := by
  obtain ⟨hs', hc'⟩ := applyOps_wf ops h h' hops hw happ
  refine ⟨⟨hs', hc'⟩, ?_⟩
  intro h2 a d na hna
  exact ⟨fun p => linkFresh_isNone_iff h2 a d p na hna,
    fun hs2 => detachOp_isNone_iff h2 hs2 a d na hna,
    fun b nb hnb => appendOp_isNone_iff h2 a d b na nb hna hnb⟩

/-- The single unlinked pot heap used by the C8 witness. -/
def singlePot : Heap := [⟨false, none, none⟩]

/-- `singlePot` after materialising a true frontier pot to its right. -/
def grownPot : Heap := [⟨false, none, some 1⟩, ⟨true, some 0, none⟩]

lemma singlePot_rightOf (a : Nat) : rightOf singlePot a = none := by
  match a with
  | 0 => rfl
  | n + 1 => rfl

lemma singlePot_leftOf (a : Nat) : leftOf singlePot a = none := by
  match a with
  | 0 => rfl
  | n + 1 => rfl

lemma singlePot_wf : wfHeap singlePot := by
  constructor
  · intro a b
    rw [singlePot_rightOf, singlePot_leftOf]
    constructor <;> (intro hh; cases hh)
  · intro a k hk hcy
    cases k with
    | zero => omega
    | succ k2 =>
      rw [iterR_succ_none _ _ _ (singlePot_rightOf a)] at hcy
      cases hcy

/-- C8 witness: the amended theorem applied to one concrete materialisation
on a well-formed single-pot heap. -/
theorem claim_c8_amended_witness :
    ((∀ op ∈ [HOp.materialize 0 Dir.right true], op.fresh_only = true)
        ∧ wfHeap singlePot
        ∧ applyOps [HOp.materialize 0 Dir.right true] singlePot = some grownPot)
      ∧ (((∀ a b, rightOf grownPot a = some b ↔ leftOf grownPot b = some a)
            ∧ (∀ a k, 0 < k → iterR grownPot k a ≠ some a))
          ∧ ∀ (h2 : Heap) (a : Nat) (d : Dir) (na : PNode), h2.get? a = some na →
              (∀ p, (linkFresh h2 a d p).isNone = true ↔ getDir na d ≠ none)
                ∧ (symmLinked h2 →
                    ((detachOp h2 a d).isNone = true ↔ getDir na d = none))
                ∧ ∀ (b : Nat) (nb : PNode), h2.get? b = some nb →
                    ((appendOp h2 a d b).isNone = true ↔ getDir na d ≠ none)) :=
  ⟨⟨by decide, singlePot_wf, rfl⟩,
    claim_c8_amended [HOp.materialize 0 Dir.right true] singlePot grownPot
      (by decide) singlePot_wf rfl⟩
